import Mathlib

set_option maxHeartbeats 1000000

/-
Shallow embedding of the `w-tesseract` plugin core (src/index.ts):
the asset store (`getInstalledLangs`), the installer (`installLang`,
`installNecessaryLangs`) and the worker factory (`createWorker`).

JavaScript strings are modelled as lists of characters, downloaded
bodies as lists of bytes.  The filesystem state is the contents of the
asset root directory; the environment injects the HTTP client and
fault flags for `mkdir`, `readdir` and the streamed file write, so the
try/catch and error paths of the source can be stated faithfully.
Resolution of the asset root against the host base directory
(`path.resolve(baseDir, config.langPath)`) is kept abstract: `Config.langPath`
stands for the resolved asset root.
-/

namespace WTesseract

/-- Characters of a JavaScript string. -/
abbrev Str := List Char

/-- Bytes of a downloaded asset body. -/
abbrev Body := List Nat

/-- View a Lean string literal as a character list. -/
def str (s : String) : Str := s.data

/-- The fixed asset suffix `.traineddata.gz` used throughout the source. -/
def assetSuffix : Str := str ".traineddata.gz"

/-- JavaScript `s.endsWith(suffix)`. -/
def endsWith (s suffix : Str) : Bool := suffix.isSuffixOf s

/-- JavaScript `s.slice(0, -n)`: all characters except the last `n`. -/
def sliceNeg (s : Str) (n : Nat) : Str := s.take (s.length - n)

/-- Fuel-driven worker for `replaceAll`.  Scans left to right; at each
position where the (nonempty) pattern is a prefix, emits the replacement
and skips the pattern; the replacement is never rescanned.  The fuel is
the length of the scanned string, enough for one step per character. -/
def replaceAllGo (pat repl : Str) : Nat → Str → Str
  | _, [] => []
  | 0, s => s
  | fuel + 1, c :: rest =>
    if pat.isPrefixOf (c :: rest) ∧ pat ≠ [] then
      repl ++ replaceAllGo pat repl fuel (rest.drop (pat.length - 1))
    else
      c :: replaceAllGo pat repl fuel rest

/-- JavaScript `s.replace(/pat/g, repl)` for a literal pattern `pat`:
replaces every non-overlapping occurrence, left to right. -/
def replaceAll (pat repl s : Str) : Str := replaceAllGo pat repl s.length s

/-- Contents of the asset root: whether the directory exists, and its
entries as file names paired with byte contents. -/
structure FS where
  rootExists : Bool
  files : List (Str × Body)
deriving DecidableEq, Repr

/-- Look a file name up in a directory listing (first match). -/
def lookupFile : List (Str × Body) → Str → Option Body
  | [], _ => none
  | (k, v) :: rest, n => if k = n then some v else lookupFile rest n

/-- Create or overwrite the entry for a file name, as
`fs.createWriteStream` does for the destination path. -/
def setEntry : List (Str × Body) → Str → Body → List (Str × Body)
  | [], n, b => [(n, b)]
  | (k, v) :: rest, n, b => if k = n then (n, b) :: rest else (k, v) :: setEntry rest n b

/-- The plugin configuration (`TesseractService.Config`): resolved asset
root, download-source URL template, download timeout in milliseconds. -/
structure Config where
  langPath : Str
  source : Str
  downloadTimeout : Nat
deriving DecidableEq, Repr

/-- The default download-source template from the config schema. -/
def defaultSource : Str :=
  str "https://unpkg.com/@tesseract.js-data/\x7blang\x7d/4.0.0_best_int/\x7bfile\x7d"

/-- The ambient effects of one call: the injected HTTP client
(url and timeout to a body, or a rejection), whether `fs.mkdir`,
`fs.readdir` and the streamed write succeed, and the bytes left behind
when a streamed write fails midway. -/
structure Env where
  http : Str → Nat → Except Unit Body
  mkdirOk : Bool
  readdirOk : Bool
  writeOk : Bool
  leftoverBody : Body

/-- The derived asset file name `lang + '.traineddata.gz'`. -/
def gzipFileName (lang : Str) : Str := lang ++ assetSuffix

/-- The download URL of `installLang`:
`config.source.replace(/{lang}/g, lang).replace(/{file}/g, gzipFileName)`. -/
def installUrl (cfg : Config) (lang : Str) : Str :=
  replaceAll (str "\x7bfile\x7d") (gzipFileName lang)
    (replaceAll (str "\x7blang\x7d") lang cfg.source)

/-- Failure modes of `installLang`: HTTP rejection or timeout, directory
creation failure, streamed write failure. -/
inductive InstallError
  | downloadFailed
  | mkdirFailed
  | writeFailed
deriving DecidableEq, Repr

deriving instance DecidableEq for Except

/-- Observable outcome of one `installLang` call: the URL requested,
success or the error raised, and the filesystem afterwards. -/
structure InstallOutcome where
  url : Str
  result : Except InstallError Unit
  fs : FS
deriving DecidableEq, Repr

/-- Method `TesseractService.installLang`: derive the file name and URL, issue
the HTTP GET with the configured timeout, then (only on a response)
create the asset root and stream the body to the destination file.  A
write failure may leave behind partially written bytes. -/
def installLang (env : Env) (cfg : Config) (fs : FS) (lang : Str) : InstallOutcome :=
  let gzipName := gzipFileName lang
  let url := installUrl cfg lang
  match env.http url cfg.downloadTimeout with
  | .error _ => { url := url, result := .error .downloadFailed, fs := fs }
  | .ok body =>
    if env.mkdirOk then
      let fs' : FS := { fs with rootExists := true }
      if env.writeOk then
        { url := url, result := .ok (),
          fs := { fs' with files := setEntry fs'.files gzipName body } }
      else
        { url := url, result := .error .writeFailed,
          fs := { fs' with files := setEntry fs'.files gzipName env.leftoverBody } }
    else
      { url := url, result := .error .mkdirFailed, fs := fs }

/-- Failure modes inside `getInstalledLangs` before its catch. -/
inductive FsError
  | mkdirFailed
  | readdirFailed
deriving DecidableEq, Repr

/-- The try-block of `TesseractService.getInstalledLangs`: create the
asset root, list the directory, keep the entries ending in
`.traineddata.gz` and strip the last 15 characters. -/
def getInstalledLangsTry (env : Env) (fs : FS) : Except FsError (List Str) × FS :=
  if env.mkdirOk then
    let fs' : FS := { fs with rootExists := true }
    if env.readdirOk then
      let dir := fs'.files.map Prod.fst
      (.ok ((dir.filter (fun s => endsWith s assetSuffix)).map (fun s => sliceNeg s 15)), fs')
    else
      (.error .readdirFailed, fs')
  else
    (.error .mkdirFailed, fs)

/-- Method `TesseractService.getInstalledLangs`: the try-block with its catch,
which logs the error and returns the empty list. -/
def getInstalledLangs (env : Env) (fs : FS) : List Str × FS :=
  match getInstalledLangsTry env fs with
  | (.ok langs, fs') => (langs, fs')
  | (.error _, fs') => ([], fs')

/-- Sequentially run `installLang` on each language of a list (a
linearisation of the `Promise.all` fan-out), collecting the settled
results. -/
def installEach (env : Env) (cfg : Config) : FS → List Str → FS × List (Except InstallError Unit)
  | fs, [] => (fs, [])
  | fs, lang :: rest =>
    let o := installLang env cfg fs lang
    let q := installEach env cfg o.fs rest
    (q.fst, o.result :: q.snd)

/-- Observable outcome of `installNecessaryLangs`: the languages
`installLang` was invoked on, the settled per-language results, and the
filesystem afterwards. -/
structure BatchOutcome where
  invoked : List Str
  results : List (Except InstallError Unit)
  fs : FS
deriving DecidableEq, Repr

/-- Method `TesseractService.installNecessaryLangs`: list the installed
languages, then install every requested language not among them. -/
def installNecessaryLangs (env : Env) (cfg : Config) (fs : FS) (langs : List Str) : BatchOutcome :=
  let p := getInstalledLangs env fs
  let installedLangs := p.fst
  let toInstall := langs.filter (fun lang => ! installedLangs.contains lang)
  let q := installEach env cfg p.snd toInstall
  { invoked := toInstall, results := q.snd, fs := q.fst }

/-- The caller-supplied option bag, `Partial<Tesseract.WorkerOptions>`:
each field may be absent.  `cachePath` stands in for the remaining
engine options. -/
structure PartialWorkerOptions where
  langPath : Option Str
  cachePath : Option Str
deriving DecidableEq, Repr

/-- The object literal `{ langPath: this.langPath, ...options }`: the
spread puts caller-supplied fields over the `langPath` default. -/
def mergeWorkerOptions (langPath : Str) (options : PartialWorkerOptions) : PartialWorkerOptions :=
  { langPath := some (options.langPath.getD langPath),
    cachePath := options.cachePath }

/-- Handle to a recognition worker as constructed by the external
`createWorker(langs, oem, options)` of tesseract.js. -/
structure Worker where
  langs : List Str
  oem : Nat
  options : PartialWorkerOptions
deriving DecidableEq, Repr

/-- The `SessionError` thrown by `createWorker`, carrying the missing
language codes that its message joins with a comma. -/
structure MissingAssetsError where
  missingLangs : List Str
deriving DecidableEq, Repr

/-- Method `TesseractService.createWorker`: list the installed languages,
compute the requested languages not among them; if any, throw a
`MissingAssetsError` naming them, otherwise construct a worker over the
requested languages with the caller options spread over the asset-root
default. -/
def createWorker (env : Env) (cfg : Config) (fs : FS) (langs : List Str)
    (options : PartialWorkerOptions) : Except MissingAssetsError Worker × FS :=
  let p := getInstalledLangs env fs
  let installedLangs := p.fst
  let missingLangs := langs.filter (fun lang => ! installedLangs.contains lang)
  if missingLangs.length ≠ 0 then
    (.error { missingLangs := missingLangs }, p.snd)
  else
    (.ok { langs := langs, oem := 1,
           options := mergeWorkerOptions cfg.langPath options }, p.snd)

/-- Language selection of the `tesseract.recognize` action: the `-l`
option split on commas when given, otherwise the first installed
language (`slice(0, 1)` of the installed list). -/
def splitComma : Str → List Str
  | [] => [[]]
  | c :: rest =>
    let r := splitComma rest
    if c = ',' then [] :: r
    else
      match r with
      | [] => [[c]]
      | h :: t => (c :: h) :: t

/-- The `langs` computed by the `tesseract.recognize` action body. -/
def recognizeLangs (env : Env) (fs : FS) (optLangs : Option Str) : List Str × FS :=
  match optLangs with
  | some s => (splitComma s, fs)
  | none =>
    let p := getInstalledLangs env fs
    (p.fst.take 1, p.snd)

/-- Fixture: the default configuration of the plugin. -/
def cfgW : Config :=
  { langPath := str "data/tesseract", source := defaultSource, downloadTimeout := 30000 }

/-- Fixture: an environment whose HTTP client answers every request with
body `[1]` and whose filesystem operations all succeed. -/
def envOk : Env :=
  { http := fun _ _ => .ok [1], mkdirOk := true, readdirOk := true, writeOk := true,
    leftoverBody := [] }

/-- Fixture: an environment whose HTTP client rejects every request. -/
def envHttpFail : Env :=
  { http := fun _ _ => .error (), mkdirOk := true, readdirOk := true, writeOk := true,
    leftoverBody := [] }

/-- Fixture: an environment where listing the asset root fails. -/
def envReaddirFail : Env :=
  { http := fun _ _ => .ok [1], mkdirOk := true, readdirOk := false, writeOk := true,
    leftoverBody := [] }

/-- Fixture: an empty asset root. -/
def fsEmpty : FS := { rootExists := false, files := [] }

/-- Fixture: an asset root holding the asset of language `eng` with body `[0]`. -/
def fsEng : FS := { rootExists := true, files := [(gzipFileName (str "eng"), [0])] }

/-- Fixture: an asset root holding the asset of language `a` with body `[7]`. -/
def fsA : FS := { rootExists := true, files := [(gzipFileName (str "a"), [7])] }

/-- Fixture: an empty option bag. -/
def optsNone : PartialWorkerOptions := { langPath := none, cachePath := none }

/-- Fixture: an option bag overriding the language-data path. -/
def optsOther : PartialWorkerOptions := { langPath := some (str "other"), cachePath := none }

/-- The asset suffix has exactly 15 characters, the count the source
hard-codes in `slice(0, -15)`. -/
theorem assetSuffix_length : assetSuffix.length = 15 := by decide

/-- Stripping the length of a suffix and re-appending it recovers the
original string. -/
theorem suffix_strip {p s : Str} (h : p.isSuffixOf s = true) :
    sliceNeg s p.length ++ p = s := by
  obtain ⟨t, ht⟩ := List.isSuffixOf_iff_suffix.mp h
  subst ht
  simp [sliceNeg, List.length_append, Nat.add_sub_cancel, List.take_left]

/-- Membership characterisation of the installed-language list computed
by a successful `getInstalledLangs`: a code is listed exactly when the
directory holds an entry named code-plus-suffix. -/
theorem mem_installedLangs_iff (env : Env) (fs : FS)
    (h1 : env.mkdirOk = true) (h2 : env.readdirOk = true) (s : Str) :
    s ∈ (getInstalledLangs env fs).fst ↔ s ++ assetSuffix ∈ fs.files.map Prod.fst := by
  unfold getInstalledLangs getInstalledLangsTry
  simp only [h1, h2, if_true]
  constructor
  · intro hs
    obtain ⟨n, hn, rfl⟩ := List.mem_map.mp hs
    have hf := List.mem_filter.mp hn
    have hstrip : sliceNeg n 15 ++ assetSuffix = n := by
      have h' := suffix_strip (p := assetSuffix) (s := n) hf.2
      rwa [assetSuffix_length] at h'
    rw [hstrip]
    exact hf.1
  · intro hs
    refine List.mem_map.mpr ⟨s ++ assetSuffix, List.mem_filter.mpr ⟨hs, ?_⟩, ?_⟩
    · show assetSuffix.isSuffixOf (s ++ assetSuffix) = true
      exact List.isSuffixOf_iff_suffix.mpr ⟨s, rfl⟩
    · show sliceNeg (s ++ assetSuffix) 15 = s
      simp [sliceNeg, List.length_append, assetSuffix_length, List.take_left]

/-- The directory entries are untouched by `getInstalledLangs` (only the
root-existence flag may change). -/
theorem getInstalledLangs_files (env : Env) (fs : FS) :
    (getInstalledLangs env fs).snd.files = fs.files := by
  unfold getInstalledLangs getInstalledLangsTry
  cases h1 : env.mkdirOk <;> cases h2 : env.readdirOk <;> simp

/-- Writing an entry makes it the one looked up under its name. -/
theorem lookupFile_setEntry_self (l : List (Str × Body)) (n : Str) (b : Body) :
    lookupFile (setEntry l n b) n = some b := by
  induction l with
  | nil => simp [setEntry, lookupFile]
  | cons kv rest ih =>
    obtain ⟨k, v⟩ := kv
    by_cases h : k = n
    · simp [setEntry, h, lookupFile]
    · simp [setEntry, h, lookupFile, ih]

/-- Writing an entry leaves lookups of other names unchanged. -/
theorem lookupFile_setEntry_ne (l : List (Str × Body)) {n m : Str} (b : Body) (h : n ≠ m) :
    lookupFile (setEntry l n b) m = lookupFile l m := by
  induction l with
  | nil => simp [setEntry, lookupFile, h]
  | cons kv rest ih =>
    obtain ⟨k, v⟩ := kv
    by_cases hk : k = n
    · subst hk
      simp [setEntry, lookupFile, h]
    · simp [setEntry, hk, lookupFile, ih]

/-- After writing an entry, a lookup returns either the written body or
what it returned before. -/
theorem lookupFile_setEntry_cases (l : List (Str × Body)) (n m : Str) (b : Body) :
    lookupFile (setEntry l n b) m = some b ∨ lookupFile (setEntry l n b) m = lookupFile l m := by
  by_cases h : n = m
  · subst h
    exact Or.inl (lookupFile_setEntry_self l n b)
  · exact Or.inr (lookupFile_setEntry_ne l b h)

/-- The name of a written entry appears among the directory entries. -/
theorem mem_fst_setEntry (l : List (Str × Body)) (n : Str) (b : Body) :
    n ∈ (setEntry l n b).map Prod.fst := by
  induction l with
  | nil => simp [setEntry]
  | cons kv rest ih =>
    obtain ⟨k, v⟩ := kv
    by_cases h : k = n
    · simp [setEntry, h]
    · simp only [setEntry, if_neg h, List.map_cons, List.mem_cons]
      exact Or.inr ih

/-- `installLang` leaves lookups of any other file name unchanged. -/
theorem installLang_lookup_ne (env : Env) (cfg : Config) (fs : FS) (lang : Str) {name : Str}
    (h : gzipFileName lang ≠ name) :
    lookupFile (installLang env cfg fs lang).fs.files name = lookupFile fs.files name := by
  simp only [installLang]
  split
  · rfl
  · split
    · split
      · exact lookupFile_setEntry_ne fs.files _ h
      · exact lookupFile_setEntry_ne fs.files _ h
    · rfl

/-- `installLang` never deletes an existing entry. -/
theorem installLang_lookup_some (env : Env) (cfg : Config) (fs : FS) (lang : Str)
    {name : Str} {c : Body} (h : lookupFile fs.files name = some c) :
    ∃ c', lookupFile (installLang env cfg fs lang).fs.files name = some c' := by
  simp only [installLang]
  split
  · exact ⟨c, h⟩
  · split
    · split
      · rcases lookupFile_setEntry_cases fs.files (gzipFileName lang) name _ with h' | h'
        · exact ⟨_, h'⟩
        · exact ⟨c, h'.trans h⟩
      · rcases lookupFile_setEntry_cases fs.files (gzipFileName lang) name _ with h' | h'
        · exact ⟨_, h'⟩
        · exact ⟨c, h'.trans h⟩
    · exact ⟨c, h⟩

/-- Running `installLang` over a list of languages leaves lookups of any
file name none of them derives unchanged. -/
theorem installEach_lookup (env : Env) (cfg : Config) (ls : List Str) (fs : FS) (name : Str)
    (h : ∀ l ∈ ls, gzipFileName l ≠ name) :
    lookupFile (installEach env cfg fs ls).fst.files name = lookupFile fs.files name := by
  induction ls generalizing fs with
  | nil => rfl
  | cons l rest ih =>
    simp only [installEach]
    have hstep := installLang_lookup_ne env cfg fs l (h l (List.mem_cons_self l rest))
    have hrest := ih (installLang env cfg fs l).fs (fun x hx => h x (List.mem_cons_of_mem _ hx))
    exact hrest.trans hstep

/-- C1: for every sequence of language codes, `createWorker` computes as
missing exactly the requested codes not contained in the installed-language
list at call time; when that list of missing codes is nonempty it throws a
`MissingAssetsError` naming exactly them and constructs no worker, and when
it is empty it constructs and returns a worker. -/
theorem C1_createWorker_missing_exact (env : Env) (cfg : Config) (fs : FS)
    (langs : List Str) (options : PartialWorkerOptions) :
    (∀ x, x ∈ langs.filter (fun l => ! ((getInstalledLangs env fs).fst.contains l)) ↔
      x ∈ langs ∧ x ∉ (getInstalledLangs env fs).fst)
    ∧ (langs.filter (fun l => ! ((getInstalledLangs env fs).fst.contains l)) ≠ [] →
        (createWorker env cfg fs langs options).fst =
          .error { missingLangs :=
            langs.filter (fun l => ! ((getInstalledLangs env fs).fst.contains l)) })
    ∧ (langs.filter (fun l => ! ((getInstalledLangs env fs).fst.contains l)) = [] →
        (createWorker env cfg fs langs options).fst =
          .ok { langs := langs, oem := 1,
                options := mergeWorkerOptions cfg.langPath options }) := by
  refine ⟨?_, ?_, ?_⟩
  · intro x
    simp [List.mem_filter, List.elem_iff]
  · intro h
    simp only [createWorker]
    rw [if_pos]
    simpa [List.length_eq_zero] using h
  · intro h
    simp only [createWorker]
    rw [if_neg]
    rw [h]
    simp

/-- Witness for C1 at a concrete input: with nothing installed,
requesting `eng` throws the error naming exactly `eng`. -/
theorem C1_witness :
    (createWorker envOk cfgW fsEmpty [str "eng"] optsNone).fst =
      .error { missingLangs := [str "eng"] } := by
  have h := (C1_createWorker_missing_exact envOk cfgW fsEmpty [str "eng"] optsNone).2.1
    (by decide)
  exact h.trans (by decide)

/-- C2: a successful `getInstalledLangs` returns exactly the directory
entries ending in the 15-character suffix `.traineddata.gz`, each with that
suffix removed, and no other entry contributes. -/
theorem C2_getInstalledLangs_suffix (env : Env) (fs : FS)
    (h1 : env.mkdirOk = true) (h2 : env.readdirOk = true) :
    (getInstalledLangs env fs).fst =
      ((fs.files.map Prod.fst).filter (fun s => endsWith s assetSuffix)).map
        (fun s => sliceNeg s 15)
    ∧ ∀ s : Str, s ∈ (getInstalledLangs env fs).fst ↔ s ++ assetSuffix ∈ fs.files.map Prod.fst := by
  constructor
  · unfold getInstalledLangs getInstalledLangsTry
    simp only [h1, h2, if_true]
  · exact mem_installedLangs_iff env fs h1 h2

/-- Witness for C2 at a concrete input: the root holding the `eng` asset
file lists exactly `eng`. -/
theorem C2_witness :
    str "eng" ++ assetSuffix ∈ fsEng.files.map Prod.fst
    ∧ str "eng" ∈ (getInstalledLangs envOk fsEng).fst := by
  refine ⟨by decide, ?_⟩
  exact ((C2_getInstalledLangs_suffix envOk fsEng rfl rfl).2 (str "eng")).mpr (by decide)

/-- C3: after a successful `installLang lang` (which wrote the file
`lang.traineddata.gz` under the asset root), a succeeding
`getInstalledLangs` contains `lang`. -/
theorem C3_install_then_listed (env₁ env₂ : Env) (cfg : Config) (fs : FS) (lang : Str)
    (hok : (installLang env₁ cfg fs lang).result = .ok ())
    (h1 : env₂.mkdirOk = true) (h2 : env₂.readdirOk = true) :
    lang ∈ (getInstalledLangs env₂ (installLang env₁ cfg fs lang).fs).fst := by
  rw [mem_installedLangs_iff env₂ _ h1 h2]
  cases hh : env₁.http (installUrl cfg lang) cfg.downloadTimeout with
  | error e =>
    simp [installLang, hh] at hok
  | ok body =>
    cases hm : env₁.mkdirOk with
    | false => simp [installLang, hh, hm] at hok
    | true =>
      cases hw : env₁.writeOk with
      | false => simp [installLang, hh, hm, hw] at hok
      | true =>
        simp only [installLang, hh, hm, hw, if_true]
        exact mem_fst_setEntry fs.files (gzipFileName lang) body

/-- Witness for C3 at a concrete input: installing `eng` into an empty
root and listing afterwards yields `eng`. -/
theorem C3_witness :
    str "eng" ∈ (getInstalledLangs envOk (installLang envOk cfgW fsEmpty (str "eng")).fs).fst :=
  C3_install_then_listed envOk envOk cfgW fsEmpty (str "eng") (by decide) rfl rfl

/-- C4: when directory creation or directory enumeration fails,
`getInstalledLangs` catches the error (its try-block raised one) and
returns the empty list instead of propagating it. -/
theorem C4_listing_failure_empty (env : Env) (fs : FS)
    (h : env.mkdirOk = false ∨ env.readdirOk = false) :
    (getInstalledLangs env fs).fst = []
    ∧ ∃ e, (getInstalledLangsTry env fs).fst = .error e := by
  cases hm : env.mkdirOk with
  | false =>
    exact ⟨by simp [getInstalledLangs, getInstalledLangsTry, hm],
      ⟨.mkdirFailed, by simp [getInstalledLangsTry, hm]⟩⟩
  | true =>
    cases hr : env.readdirOk with
    | false =>
      exact ⟨by simp [getInstalledLangs, getInstalledLangsTry, hm, hr],
        ⟨.readdirFailed, by simp [getInstalledLangsTry, hm, hr]⟩⟩
    | true =>
      rw [hm, hr] at h
      rcases h with h | h <;> exact absurd h (by simp)

/-- Witness for C4 at a concrete input: with a failing directory
listing, the result is empty although the `eng` asset is on disk. -/
theorem C4_witness :
    (getInstalledLangs envReaddirFail fsEng).fst = []
    ∧ ∃ e, (getInstalledLangsTry envReaddirFail fsEng).fst = .error e :=
  C4_listing_failure_empty envReaddirFail fsEng (Or.inr rfl)

/-- C5: `installNecessaryLangs` invokes `installLang` exactly on the
requested codes not present in the installed-language list at call time,
and the asset file of every code installed at call time is left with its
content unchanged. -/
theorem C5_installNecessary_frame (env : Env) (cfg : Config) (fs : FS) (langs : List Str) :
    (installNecessaryLangs env cfg fs langs).invoked =
      langs.filter (fun l => ! ((getInstalledLangs env fs).fst.contains l))
    ∧ (∀ x, x ∈ (installNecessaryLangs env cfg fs langs).invoked ↔
        x ∈ langs ∧ x ∉ (getInstalledLangs env fs).fst)
    ∧ ∀ L ∈ (getInstalledLangs env fs).fst,
        lookupFile (installNecessaryLangs env cfg fs langs).fs.files (gzipFileName L) =
          lookupFile fs.files (gzipFileName L) := by
  refine ⟨rfl, ?_, ?_⟩
  · intro x
    simp only [installNecessaryLangs]
    simp [List.mem_filter, List.elem_iff]
  · intro L hL
    simp only [installNecessaryLangs]
    have hne : ∀ l ∈ langs.filter (fun lang => ! ((getInstalledLangs env fs).fst.contains lang)),
        gzipFileName l ≠ gzipFileName L := by
      intro l hl hEq
      have hl' := List.mem_filter.mp hl
      have hlo : l ∉ (getInstalledLangs env fs).fst := by
        intro hmem
        rw [Bool.not_eq_true', ← Bool.not_eq_true] at hl'
        exact hl'.2 (List.elem_iff.mpr hmem)
      exact hlo (List.append_cancel_right hEq ▸ hL)
    have h1 := installEach_lookup env cfg _ (getInstalledLangs env fs).snd (gzipFileName L) hne
    rw [h1, getInstalledLangs_files]

/-- Witness for C5 at a concrete input: with only `a` installed,
requesting `a` and `b` installs exactly `b` and leaves the asset of `a`
with its original body. -/
theorem C5_witness :
    (installNecessaryLangs envOk cfgW fsA [str "a", str "b"]).invoked = [str "b"]
    ∧ lookupFile (installNecessaryLangs envOk cfgW fsA [str "a", str "b"]).fs.files
        (gzipFileName (str "a")) = some [7] := by
  refine ⟨?_, ?_⟩
  · exact ((C5_installNecessary_frame envOk cfgW fsA [str "a", str "b"]).1).trans (by decide)
  · exact (((C5_installNecessary_frame envOk cfgW fsA [str "a", str "b"]).2.2)
      (str "a") (by decide)).trans (by decide)

/-- C6: `installLang lang` requests exactly the URL built from the source
template with every occurrence of the lang placeholder replaced by `lang`
and of the file placeholder by `lang.traineddata.gz`; on a response it
writes the body to the derived file name under the asset root; with the
default template and `eng`, the URL is the concrete unpkg address. -/
theorem C6_installLang_url_write (env : Env) (cfg : Config) (fs : FS) (lang : Str)
    (body : Body) :
    (installLang env cfg fs lang).url = installUrl cfg lang
    ∧ (env.http (installUrl cfg lang) cfg.downloadTimeout = .ok body →
        env.mkdirOk = true → env.writeOk = true →
        (installLang env cfg fs lang).fs.files = setEntry fs.files (gzipFileName lang) body
        ∧ lookupFile (installLang env cfg fs lang).fs.files (gzipFileName lang) = some body)
    ∧ installUrl cfgW (str "eng") =
        str "https://unpkg.com/@tesseract.js-data/eng/4.0.0_best_int/eng.traineddata.gz" := by
  refine ⟨?_, ?_, by decide⟩
  · simp only [installLang]
    split
    · rfl
    · split
      · split
        · rfl
        · rfl
      · rfl
  · intro hh hm hw
    simp only [installLang, hh, hm, hw, if_true]
    exact ⟨trivial, lookupFile_setEntry_self fs.files (gzipFileName lang) body⟩

/-- Witness for C6 at a concrete input: installing `eng` into an empty
root writes the response body under `eng.traineddata.gz`. -/
theorem C6_witness :
    lookupFile (installLang envOk cfgW fsEmpty (str "eng")).fs.files
      (gzipFileName (str "eng")) = some [1] :=
  ((C6_installLang_url_write envOk cfgW fsEmpty (str "eng") [1]).2.1 rfl rfl rfl).2

/-- C7 counterexample: a caller-supplied option bag that itself carries a
language-data path wins over the asset root, so the constructed worker is
not configured with the asset root as its language-data path. -/
theorem C7_counterexample :
    (createWorker envOk cfgW fsEng [] optsOther).fst =
      .ok { langs := [], oem := 1,
            options := { langPath := some (str "other"), cachePath := none } }
    ∧ str "other" ≠ cfgW.langPath := by
  exact ⟨by decide, by decide⟩

/-- C7 amended: every worker returned by `createWorker` carries the
caller-supplied options spread over the default record holding the asset
root as language-data path; whenever the caller supplies no language-data
path, the worker's language-data path is the asset root. -/
theorem C7_options_merge (env : Env) (cfg : Config) (fs : FS) (langs : List Str)
    (options : PartialWorkerOptions) (w : Worker)
    (h : (createWorker env cfg fs langs options).fst = .ok w) :
    w.options = mergeWorkerOptions cfg.langPath options
    ∧ (options.langPath = none → w.options.langPath = some cfg.langPath) := by
  simp only [createWorker] at h
  split at h
  · exact absurd h (by simp)
  · rw [Except.ok.injEq] at h
    subst h
    refine ⟨rfl, ?_⟩
    intro hn
    simp [mergeWorkerOptions, hn]

/-- Witness for C7 at a concrete input: with an empty option bag, the
worker's language-data path is the asset root. -/
theorem C7_witness :
    ({ langs := [], oem := 1,
       options := mergeWorkerOptions cfgW.langPath optsNone } : Worker).options.langPath =
      some cfgW.langPath :=
  (C7_options_merge envOk cfgW fsEng [] optsNone
    { langs := [], oem := 1, options := mergeWorkerOptions cfgW.langPath optsNone }
    (by decide)).2 rfl

/-- C8 counterexample: a second successful `installLang` for a code whose
asset already exists overwrites the asset with the newly downloaded body,
so an existing asset's content is not left unchanged by every operation. -/
theorem C8_counterexample :
    lookupFile fsEng.files (gzipFileName (str "eng")) = some [0]
    ∧ (installLang envOk cfgW fsEng (str "eng")).result = .ok ()
    ∧ lookupFile (installLang envOk cfgW fsEng (str "eng")).fs.files
        (gzipFileName (str "eng")) = some [1] := by
  exact ⟨by decide, by decide, by decide⟩

/-- C8 amended: no operation ever deletes an existing asset file;
`getInstalledLangs` and `createWorker` leave every directory entry
unchanged, and `installLang` leaves an existing asset's content unchanged
unless it derives the same file name (same language code), in which case
it may overwrite it. -/
theorem C8_asset_preservation (env : Env) (cfg : Config) (fs : FS) (name : Str) (c : Body)
    (h : lookupFile fs.files name = some c) :
    (∀ lang, (∃ c', lookupFile (installLang env cfg fs lang).fs.files name = some c')
      ∧ (gzipFileName lang ≠ name →
          lookupFile (installLang env cfg fs lang).fs.files name = some c))
    ∧ (getInstalledLangs env fs).snd.files = fs.files
    ∧ ∀ langs options, (createWorker env cfg fs langs options).snd.files = fs.files := by
  refine ⟨?_, getInstalledLangs_files env fs, ?_⟩
  · intro lang
    refine ⟨installLang_lookup_some env cfg fs lang h, ?_⟩
    intro hne
    rw [installLang_lookup_ne env cfg fs lang hne]
    exact h
  · intro langs options
    simp only [createWorker]
    split
    · exact getInstalledLangs_files env fs
    · exact getInstalledLangs_files env fs

/-- Witness for C8 at a concrete input: installing `b` leaves the
existing asset of `eng` byte-identical. -/
theorem C8_witness :
    lookupFile (installLang envOk cfgW fsEng (str "b")).fs.files
      (gzipFileName (str "eng")) = some [0] :=
  ((C8_asset_preservation envOk cfgW fsEng (gzipFileName (str "eng")) [0] (by decide)).1
    (str "b")).2 (by decide)

/-- C9: `createWorker` on the empty language sequence never throws the
missing-assets error and always returns a worker bound to the empty
language list; hence the recognize action with no `-l` option and zero
installed languages selects the empty list and still obtains a worker. -/
theorem C9_empty_langs_worker (env : Env) (cfg : Config) (fs : FS)
    (options : PartialWorkerOptions) :
    (createWorker env cfg fs [] options).fst =
      .ok { langs := [], oem := 1, options := mergeWorkerOptions cfg.langPath options }
    ∧ ((getInstalledLangs env fs).fst = [] →
        (recognizeLangs env fs none).fst = []
        ∧ (createWorker env cfg fs (recognizeLangs env fs none).fst options).fst =
            .ok { langs := [], oem := 1, options := mergeWorkerOptions cfg.langPath options }) := by
  have hbase : (createWorker env cfg fs [] options).fst =
      .ok { langs := [], oem := 1, options := mergeWorkerOptions cfg.langPath options } := by
    simp [createWorker]
  refine ⟨hbase, ?_⟩
  intro h
  have hsel : (recognizeLangs env fs none).fst = [] := by
    simp [recognizeLangs, h]
  refine ⟨hsel, ?_⟩
  rw [hsel]
  exact hbase

/-- Witness for C9 at a concrete input: empty root, no `-l` option — the
selected language list is empty and a worker is still returned. -/
theorem C9_witness :
    (createWorker envOk cfgW fsEmpty (recognizeLangs envOk fsEmpty none).fst optsNone).fst =
      .ok { langs := [], oem := 1, options := mergeWorkerOptions cfgW.langPath optsNone } :=
  ((C9_empty_langs_worker envOk cfgW fsEmpty optsNone).2 (by decide)).2

/-- C10: when the HTTP GET rejects, `installLang` reports the download
failure and the filesystem is exactly as before the call: the asset root
is not created and no file is written. -/
theorem C10_http_failure_no_write (env : Env) (cfg : Config) (fs : FS) (lang : Str)
    (h : env.http (installUrl cfg lang) cfg.downloadTimeout = .error ()) :
    (installLang env cfg fs lang).result = .error .downloadFailed
    ∧ (installLang env cfg fs lang).fs = fs := by
  simp only [installLang, h]
  exact ⟨trivial, trivial⟩

/-- Witness for C10 at a concrete input: a rejecting HTTP client leaves
the empty root untouched. -/
theorem C10_witness :
    (installLang envHttpFail cfgW fsEmpty (str "eng")).result = .error .downloadFailed
    ∧ (installLang envHttpFail cfgW fsEmpty (str "eng")).fs = fsEmpty :=
  C10_http_failure_no_write envHttpFail cfgW fsEmpty (str "eng") rfl

end WTesseract
